import Mathlib

/-
Verification of the character-level n-gram language model in
`Lyrics Generation/Lyrics_generation_using_an_n-gram_model.ipynb`.

Embedding conventions:
- Python strings are `List Char` (the training text, histories, model keys).
- Python `float` probabilities are `ℚ` (the source only ever divides exact
  integer counts, so rational arithmetic captures the intended values; the
  "within floating-point tolerance" equalities become exact equalities).
- A Python `Counter` is an insertion-ordered association list
  `List (Char × ℕ)`; a `dict` of the model is an insertion-ordered
  association list as well, matching CPython dict semantics (Python >= 3.7
  preserves insertion order, and `Counter.most_common` is a stable sort by
  descending count).
- `np.random.choice(letters, p=probs)` consumes entropy from an external
  random source; the source is modelled as an oracle function handed the
  unzipped letters and probabilities (one oracle value per generation step).
- The notebook's `n` is a Python `int`, so it is `ℤ` here (the code never
  validates it, and claims quantify over `n < 1`).
-/

namespace NGram

/-- A `letter -> count` Counter: insertion-ordered association list. -/
abbrev Counter := List (Char × ℕ)

/-- A distribution: list of (letter, probability) pairs. -/
abbrev Dist := List (Char × ℚ)

/-- The language model: `history -> [(letter, probability), ...]`. -/
abbrev Model := List (List Char × Dist)

/-- The raw model built during training: `history -> Counter`. -/
abbrev RawLM := List (List Char × Counter)

/-- Source `unzip(pairs)`: `tuple(zip(*pairs))` on a list of pairs gives the
tuple of first components and the tuple of second components. -/
def unzip (pairs : Dist) : List Char × List ℚ :=
  (pairs.map Prod.fst, pairs.map Prod.snd)

/-- One step of the stable descending-by-count sort used by
`Counter.most_common`: insert `a` before the first element whose count is at
most the count of `a`, so elements discovered earlier stay first among equal
counts. -/
def insertByCount (a : Char × ℕ) : Counter → Counter
  | [] => [a]
  | b :: bs => if b.2 ≤ a.2 then a :: b :: bs else b :: insertByCount a bs

/-- Source `counter.most_common()`: CPython sorts the items by descending
count with a stable sort; any stable sort produces the same list, embedded
here as stable insertion sort. -/
def most_common : Counter → Counter
  | [] => []
  | a :: l => insertByCount a (most_common l)

/-- Source `normalize(counter)`:
`total = sum(counter.values())`;
`return [(char, cnt/total) for char, cnt in counter.most_common()]`. -/
def normalize (counter : Counter) : Dist :=
  (most_common counter).map
    (fun p => (p.1, (p.2 : ℚ) / ((counter.map Prod.snd).sum : ℚ)))

/-- Source `raw_lm[h][char] += 1`, inner `Counter` update: bump the count of
`char`, appending a fresh entry with count 1 when `char` is new (CPython
dicts append new keys at the end). -/
def bumpCounter (c : Char) : Counter → Counter
  | [] => [(c, 1)]
  | p :: rest => if p.1 = c then (p.1, p.2 + 1) :: rest else p :: bumpCounter c rest

/-- Source `raw_lm[h][char] += 1`, outer `defaultdict(Counter)` update: a
missing history gets a fresh Counter appended at the end. -/
def bumpRaw (h : List Char) (c : Char) : RawLM → RawLM
  | [] => [(h, [(c, 1)])]
  | p :: rest => if p.1 = h then (p.1, bumpCounter c p.2) :: rest else p :: bumpRaw h c rest

/-- Source history update inside the training / generation loops:
`if n == 1: history = char` / `else: history = history[1:] + char`. -/
def nextHistory (n : ℤ) (history : List Char) (c : Char) : List Char :=
  if n = 1 then [c] else history.drop 1 ++ [c]

/-- The `for char in text` loop of `train_lm`: threads the raw model and the
rolling history through the text. (`h = "".join(history)` is the identity on
a string and is dropped.) -/
def trainLoop (n : ℤ) : List Char → RawLM → List Char → RawLM
  | [], raw, _ => raw
  | c :: rest, raw, history =>
      trainLoop n rest (bumpRaw history c raw) (nextHistory n history c)

/-- The raw `history -> Counter` model after the training loop. The source
initializes `history = "~"`: a single tilde, regardless of `n`. -/
def rawLM (text : List Char) (n : ℤ) : RawLM :=
  trainLoop n text [] ['~']

/-- Source `train_lm(text, n)`:
`lm = {history : normalize(counter) for history, counter in raw_lm.items()}`. -/
def train_lm (text : List Char) (n : ℤ) : Model :=
  (rawLM text n).map (fun p => (p.1, normalize p.2))

/-- Association-list lookup for `history in lm` / `lm[history]`. -/
def lookupCtx (h : List Char) : Model → Option Dist
  | [] => none
  | p :: rest => if p.1 = h then some p.2 else lookupCtx h rest

/-- Source `generate_letter(lm, history)`: returns the dummy character `"~"`
when `history` is not a key of `lm` (no randomness consumed on that path),
otherwise unzips the stored distribution and draws one letter via the random
oracle (modelling `np.random.choice(letters, p=probs)`). -/
def generate_letter (lm : Model) (history : List Char)
    (rand : List Char → List ℚ → Char) : Char :=
  match lookupCtx history lm with
  | none => '~'
  | some dist => rand (unzip dist).1 (unzip dist).2

/-- The `for i in range(nletters)` loop of `generate_text`: `i` is the index
of the current draw (selecting that step's entropy from the oracle), `k` the
number of letters still to generate. -/
def genAux (lm : Model) (n : ℤ) (rand : ℕ → List Char → List ℚ → Char) :
    ℕ → ℕ → List Char → List Char
  | _, 0, _ => []
  | i, k + 1, history =>
      let c := generate_letter lm history (rand i)
      c :: genAux lm n rand (i + 1) k (nextHistory n history c)

/-- The sequence of `history` values that `genAux` hands to
`generate_letter`, one per generation step (same recursion as `genAux`). -/
def genHistories (lm : Model) (n : ℤ) (rand : ℕ → List Char → List ℚ → Char) :
    ℕ → ℕ → List Char → List (List Char)
  | _, 0, _ => []
  | i, k + 1, history =>
      let c := generate_letter lm history (rand i)
      history :: genHistories lm n rand (i + 1) k (nextHistory n history c)

/-- Source `" ".join(text)` where `text` is a list of single-character
strings: the characters separated by single spaces. -/
def joinSpace : List Char → List Char
  | [] => []
  | [c] => [c]
  | c :: c2 :: rest => c :: ' ' :: joinSpace (c2 :: rest)

/-- Source `generate_text(lm, n, nletters)`: starts from `history = "~"`
(a single tilde), draws `nletters` letters, and returns `" ".join(text)`. -/
def generate_text (lm : Model) (n : ℤ) (nletters : ℕ)
    (rand : ℕ → List Char → List ℚ → Char) : List Char :=
  joinSpace (genAux lm n rand 0 nletters ['~'])

-- Concrete sanity checks of the embedding against the notebook behavior.
theorem rawLM_cacao_check : rawLM ['c','a','c','a','o'] 3 =
    [(['~'], [('c', 1)]), (['c'], [('a', 2)]), (['a'], [('c', 1), ('o', 1)])] := by
  decide

theorem generate_text_empty_model_check :
    generate_text [] 2 2 (fun _ _ _ => 'x') = ['~', ' ', '~'] := by decide

/-! ### Helper lemmas -/

theorem nextHistory_length (n : ℤ) (history : List Char) (c : Char)
    (hh : history.length = 1) : (nextHistory n history c).length = 1 := by
  unfold nextHistory
  split
  · rfl
  · simp [hh]

theorem bumpRaw_keys (h : List Char) (c : Char) :
    ∀ raw : RawLM, ∀ k ∈ (bumpRaw h c raw).map Prod.fst,
      k ∈ raw.map Prod.fst ∨ k = h := by
  intro raw
  induction raw with
  | nil => intro k hk; simp [bumpRaw] at hk; simp [hk]
  | cons p rest ih =>
      intro k hk
      by_cases hp : p.1 = h
      · simp [bumpRaw, hp] at hk
        rcases hk with hk | hk
        · right; rw [hk, ← hp]
        · left; simp [hk]
      · simp [bumpRaw, hp] at hk
        rcases hk with hk | hk
        · left; simp [hk]
        · rcases ih k (by simpa using hk) with h1 | h1
          · left; simp [h1]
          · right; exact h1

theorem trainLoop_keys (n : ℤ) :
    ∀ (text : List Char) (raw : RawLM) (history : List Char),
      history.length = 1 → (∀ k ∈ raw.map Prod.fst, k.length = 1) →
      ∀ k ∈ (trainLoop n text raw history).map Prod.fst, k.length = 1 := by
  intro text
  induction text with
  | nil => intro raw history _ hraw k hk; exact hraw k hk
  | cons c rest ih =>
      intro raw history hh hraw k hk
      refine ih (bumpRaw history c raw) (nextHistory n history c)
        (nextHistory_length n history c hh) ?_ k hk
      intro k2 hk2
      rcases bumpRaw_keys history c raw k2 hk2 with h1 | h1
      · exact hraw k2 h1
      · rw [h1]; exact hh

theorem rawLM_keys (text : List Char) (n : ℤ) :
    ∀ k ∈ (rawLM text n).map Prod.fst, k.length = 1 := by
  intro k hk
  exact trainLoop_keys n text [] ['~'] rfl (by simp) k hk

theorem train_lm_keys_eq (text : List Char) (n : ℤ) :
    (train_lm text n).map Prod.fst = (rawLM text n).map Prod.fst := by
  simp [train_lm]

/-- A Counter as produced by training: nonempty, every count at least 1. -/
def GoodCounter (cnt : Counter) : Prop :=
  cnt ≠ [] ∧ ∀ q ∈ cnt, 1 ≤ q.2

theorem bumpCounter_good (c : Char) (cnt : Counter)
    (hcnt : ∀ q ∈ cnt, 1 ≤ q.2) : GoodCounter (bumpCounter c cnt) := by
  induction cnt with
  | nil => exact ⟨by simp [bumpCounter], by simp [bumpCounter]⟩
  | cons p rest ih =>
      by_cases hp : p.1 = c
      · refine ⟨by simp [bumpCounter, hp], ?_⟩
        intro q hq
        simp [bumpCounter, hp] at hq
        rcases hq with hq | hq
        · rw [hq]; simp
        · exact hcnt q (by simp [hq])
      · refine ⟨by simp [bumpCounter, hp], ?_⟩
        intro q hq
        simp [bumpCounter, hp] at hq
        rcases hq with hq | hq
        · exact hcnt q (by simp [hq])
        · exact (ih (fun q2 hq2 => hcnt q2 (by simp [hq2]))).2 q hq

theorem bumpRaw_mem (h : List Char) (c : Char) :
    ∀ raw : RawLM, ∀ p ∈ bumpRaw h c raw,
      p ∈ raw ∨ (∃ q ∈ raw, p = (q.1, bumpCounter c q.2)) ∨ p = (h, [(c, 1)]) := by
  intro raw
  induction raw with
  | nil => intro p hp; simp [bumpRaw] at hp; simp [hp]
  | cons r rest ih =>
      intro p hp
      by_cases hr : r.1 = h
      · simp [bumpRaw, hr] at hp
        rcases hp with hp | hp
        · exact Or.inr (Or.inl ⟨r, by simp, by rw [hp, hr]⟩)
        · exact Or.inl (by simp [hp])
      · simp [bumpRaw, hr] at hp
        rcases hp with hp | hp
        · exact Or.inl (by simp [hp])
        · rcases ih p hp with h1 | h1 | h1
          · exact Or.inl (by simp [h1])
          · rcases h1 with ⟨q, hq, hpq⟩
            exact Or.inr (Or.inl ⟨q, by simp [hq], hpq⟩)
          · exact Or.inr (Or.inr h1)

theorem trainLoop_good (n : ℤ) :
    ∀ (text : List Char) (raw : RawLM) (history : List Char),
      (∀ p ∈ raw, GoodCounter p.2) →
      ∀ p ∈ trainLoop n text raw history, GoodCounter p.2 := by
  intro text
  induction text with
  | nil => intro raw history hraw p hp; exact hraw p hp
  | cons c rest ih =>
      intro raw history hraw p hp
      refine ih (bumpRaw history c raw) (nextHistory n history c) ?_ p hp
      intro q hq
      rcases bumpRaw_mem history c raw q hq with h1 | h1 | h1
      · exact hraw q h1
      · rcases h1 with ⟨r, hr, hqr⟩
        rw [hqr]
        exact bumpCounter_good c r.2 (fun s hs => (hraw r hr).2 s hs)
      · rw [h1]
        exact ⟨by simp, by simp⟩

theorem rawLM_good (text : List Char) (n : ℤ) :
    ∀ p ∈ rawLM text n, GoodCounter p.2 := by
  intro p hp
  exact trainLoop_good n text [] ['~'] (by simp) p hp

theorem GoodCounter.sum_pos (cnt : Counter) (h : GoodCounter cnt) :
    1 ≤ (cnt.map Prod.snd).sum := by
  rcases cnt with _ | ⟨q, rest⟩
  · exact absurd rfl h.1
  · have h1 : 1 ≤ q.2 := h.2 q (by simp)
    simp only [List.map_cons, List.sum_cons]
    omega

theorem trainLoop_congr (n m : ℤ) (hn : n ≠ 1) (hm : m ≠ 1) :
    ∀ (text : List Char) (raw : RawLM) (history : List Char),
      trainLoop n text raw history = trainLoop m text raw history := by
  intro text
  induction text with
  | nil => intro raw history; rfl
  | cons c rest ih =>
      intro raw history
      show trainLoop n rest _ (nextHistory n history c)
          = trainLoop m rest _ (nextHistory m history c)
      rw [show nextHistory n history c = nextHistory m history c by
        simp [nextHistory, hn, hm]]
      exact ih _ _

theorem lookupCtx_eq_none (h : List Char) :
    ∀ lm : Model, h ∉ lm.map Prod.fst → lookupCtx h lm = none := by
  intro lm
  induction lm with
  | nil => intro _; rfl
  | cons p rest ih =>
      intro hmem
      have hp : p.1 ≠ h := by
        intro hcontra
        exact hmem (by simp [hcontra])
      simp [lookupCtx, hp]
      exact ih (fun hcontra => hmem (by simp [hcontra]))

theorem genAux_length (lm : Model) (n : ℤ) (rand : ℕ → List Char → List ℚ → Char) :
    ∀ (k i : ℕ) (history : List Char), (genAux lm n rand i k history).length = k := by
  intro k
  induction k with
  | zero => intro i history; rfl
  | succ k ih =>
      intro i history
      simp only [genAux, List.length_cons]
      rw [ih]

theorem genHistories_length_one (lm : Model) (n : ℤ)
    (rand : ℕ → List Char → List ℚ → Char) :
    ∀ (k i : ℕ) (history : List Char), history.length = 1 →
      ∀ h2 ∈ genHistories lm n rand i k history, h2.length = 1 := by
  intro k
  induction k with
  | zero => intro i history _ h2 hh2; simp [genHistories] at hh2
  | succ k ih =>
      intro i history hh h2 hh2
      simp only [genHistories, List.mem_cons] at hh2
      rcases hh2 with hh2 | hh2
      · rw [hh2]; exact hh
      · exact ih (i + 1) (nextHistory n history _) (nextHistory_length n history _ hh) h2 hh2

theorem genAux_eq_lookups (lm : Model) (n : ℤ)
    (rand : ℕ → List Char → List ℚ → Char) :
    ∀ (k i : ℕ) (history : List Char),
      genAux lm n rand i k history =
        ((genHistories lm n rand i k history).zip (List.range' i k)).map
          (fun p => generate_letter lm p.1 (rand p.2)) := by
  intro k
  induction k with
  | zero => intro i history; rfl
  | succ k ih =>
      intro i history
      simp only [genAux, genHistories, List.range', List.zip_cons_cons, List.map_cons]
      rw [ih]

theorem joinSpace_length :
    ∀ l : List Char, (joinSpace l).length = 2 * l.length - 1 := by
  intro l
  induction l with
  | nil => rfl
  | cons c rest ih =>
      cases rest with
      | nil => rfl
      | cons c2 rest2 =>
          simp only [joinSpace, List.length_cons] at ih ⊢
          omega

theorem insertByCount_perm (a : Char × ℕ) :
    ∀ l : Counter, (insertByCount a l).Perm (a :: l) := by
  intro l
  induction l with
  | nil => exact List.Perm.refl _
  | cons b bs ih =>
      unfold insertByCount
      split
      · exact List.Perm.refl _
      · exact (List.Perm.cons b ih).trans (List.Perm.swap a b bs)

theorem most_common_perm : ∀ l : Counter, (most_common l).Perm l := by
  intro l
  induction l with
  | nil => exact List.Perm.refl _
  | cons a bs ih =>
      exact (insertByCount_perm a (most_common bs)).trans (List.Perm.cons a ih)

theorem pairwise_insertByCount (a : Char × ℕ) :
    ∀ l : Counter, List.Pairwise (fun x y => y.2 ≤ x.2) l →
      List.Pairwise (fun x y => y.2 ≤ x.2) (insertByCount a l) := by
  intro l
  induction l with
  | nil => intro _; simp [insertByCount]
  | cons b bs ih =>
      intro hl
      rw [List.pairwise_cons] at hl
      unfold insertByCount
      split
      · rename_i hba
        rw [List.pairwise_cons]
        refine ⟨?_, List.pairwise_cons.mpr hl⟩
        intro x hx
        rcases List.mem_cons.mp hx with hx | hx
        · rw [hx]; exact hba
        · exact le_trans (hl.1 x hx) hba
      · rename_i hba
        rw [List.pairwise_cons]
        refine ⟨?_, ih hl.2⟩
        intro x hx
        rcases List.mem_cons.mp ((insertByCount_perm a bs).mem_iff.mp hx) with hx | hx
        · rw [hx]; omega
        · exact hl.1 x hx

theorem pairwise_most_common :
    ∀ l : Counter, List.Pairwise (fun x y => y.2 ≤ x.2) (most_common l) := by
  intro l
  induction l with
  | nil => simp [most_common]
  | cons a bs ih => exact pairwise_insertByCount a (most_common bs) ih

theorem filter_insertByCount (p : Char × ℕ → Bool)
    (hp : ∀ x y, p x = true → p y = true → x.2 = y.2) (a : Char × ℕ) :
    ∀ l : Counter, (insertByCount a l).filter p = (a :: l).filter p := by
  intro l
  induction l with
  | nil => rfl
  | cons b bs ih =>
      unfold insertByCount
      split
      · rfl
      · rename_i hba
        by_cases hpb : p b = true
        · by_cases hpa : p a = true
          · exact absurd (hp a b hpa hpb) (by omega)
          · rw [List.filter_cons_of_pos hpb, ih,
              List.filter_cons_of_neg (by simp [hpa]),
              List.filter_cons_of_neg (by simp [hpa]),
              List.filter_cons_of_pos hpb]
        · rw [List.filter_cons_of_neg (by simp [hpb]), ih]
          by_cases hpa : p a = true
          · rw [List.filter_cons_of_pos hpa, List.filter_cons_of_pos hpa,
              List.filter_cons_of_neg (by simp [hpb])]
          · rw [List.filter_cons_of_neg (by simp [hpa]),
              List.filter_cons_of_neg (by simp [hpa]),
              List.filter_cons_of_neg (by simp [hpb])]

theorem filter_most_common (p : Char × ℕ → Bool)
    (hp : ∀ x y, p x = true → p y = true → x.2 = y.2) :
    ∀ l : Counter, (most_common l).filter p = l.filter p := by
  intro l
  induction l with
  | nil => rfl
  | cons a bs ih =>
      show (insertByCount a (most_common bs)).filter p = _
      rw [filter_insertByCount p hp a (most_common bs)]
      by_cases hpa : p a = true
      · rw [List.filter_cons_of_pos hpa, ih, List.filter_cons_of_pos hpa]
      · rw [List.filter_cons_of_neg (by simp [hpa]), ih,
          List.filter_cons_of_neg (by simp [hpa])]

theorem normalize_snd_sum (cnt : Counter) (h : 1 ≤ (cnt.map Prod.snd).sum) :
    ((normalize cnt).map Prod.snd).sum = 1 := by
  have hT : (0 : ℚ) < ((cnt.map Prod.snd).sum : ℚ) := by
    exact_mod_cast Nat.lt_of_lt_of_le Nat.zero_lt_one h
  unfold normalize
  rw [List.map_map]
  have hmap : (Prod.snd ∘ fun p : Char × ℕ =>
      ((p.1, (p.2 : ℚ) / ((cnt.map Prod.snd).sum : ℚ)) : Char × ℚ)) =
      fun p : Char × ℕ => (p.2 : ℚ) * (((cnt.map Prod.snd).sum : ℚ))⁻¹ := by
    funext p
    simp [div_eq_mul_inv]
  rw [hmap, List.sum_map_mul_right]
  have hsum : (List.map (fun p : Char × ℕ => (p.2 : ℚ)) (most_common cnt)).sum
      = (List.map (fun p : Char × ℕ => (p.2 : ℚ)) cnt).sum :=
    ((most_common_perm cnt).map _).sum_eq
  rw [hsum]
  have hcast : (List.map (fun p : Char × ℕ => (p.2 : ℚ)) cnt).sum
      = (((cnt.map Prod.snd).sum : ℕ) : ℚ) := by
    rw [Nat.cast_list_sum, List.map_map]
    rfl
  rw [hcast]
  exact mul_inv_cancel₀ (ne_of_gt hT)

theorem normalize_mem (cnt : Counter) :
    ∀ q ∈ normalize cnt, ∃ k : ℕ, (q.1, k) ∈ cnt ∧
      q.2 = (k : ℚ) / ((cnt.map Prod.snd).sum : ℚ) := by
  intro q hq
  unfold normalize at hq
  rcases List.mem_map.mp hq with ⟨p, hp, hpq⟩
  refine ⟨p.2, ?_, ?_⟩
  · have : (q.1, p.2) = p := by rw [← hpq]
    rw [this]
    exact (most_common_perm cnt).mem_iff.mp hp
  · rw [← hpq]

theorem normalize_fst_perm (cnt : Counter) :
    ((normalize cnt).map Prod.fst).Perm (cnt.map Prod.fst) := by
  unfold normalize
  rw [List.map_map]
  have : (Prod.fst ∘ fun p : Char × ℕ =>
      ((p.1, (p.2 : ℚ) / ((cnt.map Prod.snd).sum : ℚ)) : Char × ℚ)) = Prod.fst := by
    funext p
    rfl
  rw [this]
  exact (most_common_perm cnt).map Prod.fst

theorem normalize_pairwise (cnt : Counter) :
    List.Pairwise (fun a b => b.2 ≤ a.2) (normalize cnt) := by
  unfold normalize
  refine List.Pairwise.map _ ?_ (pairwise_most_common cnt)
  intro a b hab
  by_cases hT : ((cnt.map Prod.snd).sum : ℚ) = 0
  · simp [hT]
  · have hTpos : (0 : ℚ) < ((cnt.map Prod.snd).sum : ℚ) := by
      have h0 : (0 : ℚ) ≤ ((cnt.map Prod.snd).sum : ℚ) := Nat.cast_nonneg _
      exact lt_of_le_of_ne h0 (Ne.symm hT)
    exact (div_le_div_iff_of_pos_right hTpos).mpr (by exact_mod_cast hab)

theorem normalize_stable (cnt : Counter)
    (hT : ((cnt.map Prod.snd).sum : ℚ) ≠ 0) (q : ℚ) :
    ((normalize cnt).filter (fun a => a.2 = q)).map Prod.fst =
      ((cnt.map (fun r => (r.1, (r.2 : ℚ) / ((cnt.map Prod.snd).sum : ℚ)))).filter
        (fun a => a.2 = q)).map Prod.fst := by
  unfold normalize
  rw [List.filter_map, List.filter_map]
  rw [filter_most_common _ ?_ cnt]
  intro x y hx hy
  simp only [Function.comp_apply, decide_eq_true_eq] at hx hy
  have hxy : (x.2 : ℚ) / ((cnt.map Prod.snd).sum : ℚ)
      = (y.2 : ℚ) / ((cnt.map Prod.snd).sum : ℚ) := by rw [hx, hy]
  have h2 := congrArg (fun z => z * ((cnt.map Prod.snd).sum : ℚ)) hxy
  simp only [div_mul_cancel₀ _ hT] at h2
  exact_mod_cast h2

theorem mem_joinSpace :
    ∀ (l : List Char) (c : Char), c ∈ joinSpace l → c = ' ' ∨ c ∈ l := by
  intro l
  induction l with
  | nil => intro c hc; simp [joinSpace] at hc
  | cons c1 rest ih =>
      intro c hc
      cases rest with
      | nil => simp [joinSpace] at hc; simp [hc]
      | cons c2 rest2 =>
          simp only [joinSpace, List.mem_cons] at hc
          rcases hc with hc | hc | hc
          · right; simp [hc]
          · left; exact hc
          · rcases ih c hc with h1 | h1
            · left; exact h1
            · right; simp [h1]

/-! ### Claim theorems -/

/-- C1: the claim (and the docstring of `train_lm`) says training on "cacao"
with n = 3 yields the four entries keyed "ac", "ca", "~~", "~c". The code
actually returns the three length-1 keys "~", "c", "a", because `history` is
initialized to the single character "~" rather than to `"~" * (n - 1)`; in
particular neither "ac" nor "~~" is a key of the result. -/
theorem train_lm_cacao_evaluation :
    train_lm ['c','a','c','a','o'] 3 =
      [(['~'], [('c', 1)]), (['c'], [('a', 1)]),
       (['a'], [('c', 1/2), ('o', 1/2)])] ∧
    ['a','c'] ∉ (train_lm ['c','a','c','a','o'] 3).map Prod.fst ∧
    ['~','~'] ∉ (train_lm ['c','a','c','a','o'] 3).map Prod.fst := by
  refine ⟨?_, ?_, ?_⟩
  · simp [train_lm, rawLM, trainLoop, bumpRaw, bumpCounter, nextHistory,
      normalize, most_common, insertByCount]
    norm_num
  · rw [train_lm_keys_eq]; decide
  · rw [train_lm_keys_eq]; decide

/-- C2: the claim says the rolling context starts as n-1 sentinel characters
and every model key has exactly n-1 characters. The code initializes the
context to the single character "~" for every n, so for n = 3 the keys of
`train_lm "ab" 3` are the length-1 strings "~" and "a", not length-2 strings. -/
theorem train_lm_keys_not_length_n_minus_one :
    (train_lm ['a','b'] 3).map Prod.fst = [['~'], ['a']] ∧
    ¬ (∀ k ∈ (train_lm ['a','b'] 3).map Prod.fst, k.length = 2) := by
  constructor
  · rw [train_lm_keys_eq]; decide
  · rw [train_lm_keys_eq]; decide

/-- C3 counterexample: the claim says `generate_text` returns a sequence of
exactly `length` sampled elements. On the empty model with length 2 every
draw misses and yields "~", but the code returns `" ".join(text)`, i.e. the
3-character string "~ ~": the length is not 2 and a space character that was
never sampled is included. -/
theorem generate_text_join_counterexample :
    (generate_text [] 2 2 (fun _ _ _ => 'x')).length ≠ 2 ∧
    ' ' ∈ generate_text [] 2 2 (fun _ _ _ => 'x') := by decide

/-- C3 amended: `generate_text` samples exactly `length` characters (the
sentinel seeding of the history is never emitted by itself, only sampled
characters are collected), then returns them joined with single spaces, so
the returned string has `2 * length - 1` characters (0 when `length = 0`)
and each returned character is a space separator or one of the sampled
characters; no error is possible. -/
theorem generate_text_sampled_length (lm : Model) (n : ℤ)
    (rand : ℕ → List Char → List ℚ → Char) (len : ℕ) :
    (genAux lm n rand 0 len ['~']).length = len ∧
    (generate_text lm n len rand).length = 2 * len - 1 ∧
    ∀ c ∈ generate_text lm n len rand,
      c = ' ' ∨ c ∈ genAux lm n rand 0 len ['~'] := by
  refine ⟨genAux_length lm n rand len 0 ['~'], ?_, ?_⟩
  · unfold generate_text
    rw [joinSpace_length, genAux_length]
  · intro c hc
    exact mem_joinSpace _ c hc

/-- C4 counterexample: the claim says training with n < 1 fails with an
invalid-argument condition and returns no model. The code performs no
validation at all: `train_lm "cacao" 0` returns the same model as any
n different from 1 (only the `n == 1` branch inspects n). -/
theorem train_lm_n_zero_returns_model :
    train_lm ['c','a','c','a','o'] 0 =
      [(['~'], [('c', 1)]), (['c'], [('a', 1)]),
       (['a'], [('c', 1/2), ('o', 1/2)])] := by
  simp [train_lm, rawLM, trainLoop, bumpRaw, bumpCounter, nextHistory,
    normalize, most_common, insertByCount]
  norm_num

/-- C4 amended: `train_lm` never signals an invalid-argument condition; for
every text and every n < 1 it returns a model, namely the same model that
any order different from 1 produces (here compared with n = 2), because the
only use of n is the `n == 1` test in the history update. -/
theorem train_lm_no_validation (text : List Char) (n : ℤ) (h : n < 1) :
    train_lm text n = train_lm text 2 := by
  unfold train_lm rawLM
  rw [trainLoop_congr n 2 (by omega) (by omega) text [] ['~']]

theorem train_lm_no_validation_witness :
    (0 : ℤ) < 1 ∧ train_lm ['a'] 0 = train_lm ['a'] 2 :=
  ⟨by decide, train_lm_no_validation ['a'] 0 (by decide)⟩

/-- C6: when the requested history is not a key of the model,
`generate_letter` returns the sentinel "~", for every random oracle (the
oracle is not consulted on the miss path, so no randomness is consumed and
the result is deterministic). -/
theorem generate_letter_miss (lm : Model) (history : List Char)
    (rand : List Char → List ℚ → Char) (h : history ∉ lm.map Prod.fst) :
    generate_letter lm history rand = '~' := by
  unfold generate_letter
  rw [lookupCtx_eq_none history lm h]

theorem generate_letter_miss_witness :
    (['z'] ∉ ([(['a'], [('b', (1 : ℚ))])] : Model).map Prod.fst) ∧
    generate_letter [(['a'], [('b', (1 : ℚ))])] ['z'] (fun _ _ => 'x') = '~' :=
  ⟨by decide, generate_letter_miss [(['a'], [('b', (1 : ℚ))])] ['z']
    (fun _ _ => 'x') (by decide)⟩

/-- C7: training is deterministic — it is a pure function of the text and
the order, so equal inputs give equal models (the embedding of `train_lm`
involves no random source and no ambient state). -/
theorem train_lm_deterministic (t1 t2 : List Char) (n1 n2 : ℤ)
    (ht : t1 = t2) (hn : n1 = n2) : train_lm t1 n1 = train_lm t2 n2 := by
  rw [ht, hn]

theorem train_lm_deterministic_witness :
    (['c','a'] : List Char) = ['c','a'] ∧ (2 : ℤ) = 2 ∧
    train_lm ['c','a'] 2 = train_lm ['c','a'] 2 :=
  ⟨rfl, rfl, train_lm_deterministic ['c','a'] ['c','a'] 2 2 rfl rfl⟩

/-- C8: for every n at least 1, training on the empty text is not an error
and produces the empty model: the training loop never runs, so the raw
model stays empty and so does its normalization. -/
theorem train_lm_empty_text (n : ℤ) (h : 1 ≤ n) : train_lm [] n = [] := rfl

theorem train_lm_empty_text_witness : (1 : ℤ) ≤ 1 ∧ train_lm [] 1 = [] :=
  ⟨le_refl 1, train_lm_empty_text 1 (le_refl 1)⟩

/-- C9: for every n at least 2, the history window never grows toward length
n-1: every key of the trained model has length exactly 1 (the history starts
as the single character "~" and `history[1:] + char` preserves length 1),
and generation maintains its history under the same rule, so every context
it looks up — the histories handed to `generate_letter`, which produce
exactly the generated characters — has length exactly 1. -/
theorem history_window_stays_length_one (n : ℤ) (hn : 2 ≤ n) :
    (∀ text : List Char, ∀ key ∈ (train_lm text n).map Prod.fst,
      key.length = 1) ∧
    (∀ (lm : Model) (rand : ℕ → List Char → List ℚ → Char) (k : ℕ),
      ∀ h ∈ genHistories lm n rand 0 k ['~'], h.length = 1) ∧
    (∀ (lm : Model) (rand : ℕ → List Char → List ℚ → Char) (k : ℕ),
      genAux lm n rand 0 k ['~'] =
        ((genHistories lm n rand 0 k ['~']).zip (List.range' 0 k)).map
          (fun p => generate_letter lm p.1 (rand p.2))) := by
  refine ⟨?_, ?_, ?_⟩
  · intro text key hk
    rw [train_lm_keys_eq] at hk
    exact rawLM_keys text n key hk
  · intro lm rand k h hh
    exact genHistories_length_one lm n rand k 0 ['~'] rfl h hh
  · intro lm rand k
    exact genAux_eq_lookups lm n rand k 0 ['~']

theorem history_window_stays_length_one_witness :
    (2 : ℤ) ≤ 2 ∧
    ((∀ text : List Char, ∀ key ∈ (train_lm text 2).map Prod.fst,
      key.length = 1) ∧
    (∀ (lm : Model) (rand : ℕ → List Char → List ℚ → Char) (k : ℕ),
      ∀ h ∈ genHistories lm 2 rand 0 k ['~'], h.length = 1) ∧
    (∀ (lm : Model) (rand : ℕ → List Char → List ℚ → Char) (k : ℕ),
      genAux lm 2 rand 0 k ['~'] =
        ((genHistories lm 2 rand 0 k ['~']).zip (List.range' 0 k)).map
          (fun p => generate_letter lm p.1 (rand p.2)))) :=
  ⟨by decide, history_window_stays_length_one 2 (by decide)⟩

/-- C10: every counter stored in the raw model received at least one
increment before normalization, so it is nonempty, its total count is at
least 1, and the denominator `total` that `normalize` divides by is nonzero:
the division-by-zero branch is unreachable from `train_lm` (which is a total
function of its inputs in this embedding). -/
theorem rawLM_counters_positive (text : List Char) (n : ℤ)
    (p : List Char × Counter) (hp : p ∈ rawLM text n) :
    p.2 ≠ [] ∧ 1 ≤ (p.2.map Prod.snd).sum ∧
    ((p.2.map Prod.snd).sum : ℚ) ≠ 0 := by
  have hgood := rawLM_good text n p hp
  have hsum := GoodCounter.sum_pos p.2 hgood
  refine ⟨hgood.1, hsum, ?_⟩
  have : (0 : ℚ) < ((p.2.map Prod.snd).sum : ℚ) := by exact_mod_cast hsum
  exact ne_of_gt this

theorem rawLM_counters_positive_witness :
    ((['~'], [('a', 1)]) ∈ rawLM ['a'] 2) ∧
    (([(('a' : Char), (1 : ℕ))] : Counter) ≠ [] ∧
      1 ≤ (([(('a' : Char), (1 : ℕ))] : Counter).map Prod.snd).sum ∧
      ((([(('a' : Char), (1 : ℕ))] : Counter).map Prod.snd).sum : ℚ) ≠ 0) :=
  ⟨by decide, rawLM_counters_positive ['a'] 2 (['~'], [('a', 1)]) (by decide)⟩

/-- C5: for every entry of a trained model there is the counter collected
for that context during the pass, and the distribution for that entry sums
exactly to 1, assigns each character the count of that character after the
context divided by the total count observed after the context, lists exactly
the observed characters (a permutation of the counter keys), is sorted by
descending probability, and breaks ties by first-encountered order: for any
probability value, the characters carrying it appear in the same order as in
the counter, which records discovery order. -/
theorem train_lm_dist_invariant (text : List Char) (n : ℤ)
    (entry : List Char × Dist) (hmem : entry ∈ train_lm text n) :
    ∃ counter : Counter,
      (entry.1, counter) ∈ rawLM text n ∧
      (entry.2.map Prod.snd).sum = 1 ∧
      (∀ q ∈ entry.2, ∃ k : ℕ, (q.1, k) ∈ counter ∧
        q.2 = (k : ℚ) / ((counter.map Prod.snd).sum : ℚ)) ∧
      (entry.2.map Prod.fst).Perm (counter.map Prod.fst) ∧
      List.Pairwise (fun a b => b.2 ≤ a.2) entry.2 ∧
      (∀ q : ℚ, (entry.2.filter (fun a => a.2 = q)).map Prod.fst =
        ((counter.map (fun r =>
            (r.1, (r.2 : ℚ) / ((counter.map Prod.snd).sum : ℚ)))).filter
          (fun a => a.2 = q)).map Prod.fst) := by
  unfold train_lm at hmem
  rcases List.mem_map.mp hmem with ⟨p, hp, hpe⟩
  subst hpe
  have hgood := rawLM_good text n p hp
  have hsum := GoodCounter.sum_pos p.2 hgood
  have hT : ((p.2.map Prod.snd).sum : ℚ) ≠ 0 := by
    have : (0 : ℚ) < ((p.2.map Prod.snd).sum : ℚ) := by exact_mod_cast hsum
    exact ne_of_gt this
  refine ⟨p.2, by simpa using hp, normalize_snd_sum p.2 hsum,
    normalize_mem p.2, normalize_fst_perm p.2, normalize_pairwise p.2,
    normalize_stable p.2 hT⟩

theorem train_lm_dist_invariant_witness :
    ((['~'], [('a', (1 : ℚ))]) ∈ train_lm ['a'] 2) ∧
    (∃ counter : Counter,
      (['~'], counter) ∈ rawLM ['a'] 2 ∧
      (([(('a' : Char), (1 : ℚ))] : Dist).map Prod.snd).sum = 1 ∧
      (∀ q ∈ ([(('a' : Char), (1 : ℚ))] : Dist), ∃ k : ℕ, (q.1, k) ∈ counter ∧
        q.2 = (k : ℚ) / ((counter.map Prod.snd).sum : ℚ)) ∧
      ((([(('a' : Char), (1 : ℚ))] : Dist).map Prod.fst).Perm
        (counter.map Prod.fst)) ∧
      List.Pairwise (fun a b => b.2 ≤ a.2) ([(('a' : Char), (1 : ℚ))] : Dist) ∧
      (∀ q : ℚ,
        ((([(('a' : Char), (1 : ℚ))] : Dist).filter
            (fun a => a.2 = q)).map Prod.fst =
          ((counter.map (fun r =>
              (r.1, (r.2 : ℚ) / ((counter.map Prod.snd).sum : ℚ)))).filter
            (fun a => a.2 = q)).map Prod.fst))) :=
  ⟨by simp [train_lm, rawLM, trainLoop, bumpRaw, bumpCounter, nextHistory,
      normalize, most_common, insertByCount],
   train_lm_dist_invariant ['a'] 2 (['~'], [('a', 1)])
    (by simp [train_lm, rawLM, trainLoop, bumpRaw, bumpCounter, nextHistory,
      normalize, most_common, insertByCount])⟩

end NGram
